import Mathlib

/-!
# Verification of the sdbtreefs VFS adapter and persistence coordinator

A shallow embedding of the namespace/link-accounting layer, the `localize`
key-id map, the `getattr` size correction, and the `persist`/`load`
checkpoint protocol of the sdbtreefs encrypted pass-through filesystem
(`src/lib.rs`, `src/persist.rs`, `src/localize.rs`).

The in-memory `HashMap`s of the Rust code are embedded as association
lists with unique keys; the external collaborators (the `sdbtree` key
forest, the identity allocator, the pass-through backend and the enclave
file) are modelled at the interfaces the adapter uses: the key forest as
the finite set of key-ids it currently holds, the allocator as a free
list, the backend result as an errno-style integer parameter, and the
enclave as a byte list.
-/

namespace SDBTreeFs

/-! ## Association-list maps (embedding of `std::collections::HashMap`) -/

/-- Error kinds of `src/error.rs` (`Io` is rendered `ioErr`). -/
inductive Error where
  | ioErr
  | mapping (path : String)
  | alloc
  | dealloc (id : Nat)
  | storage
  | enclave
  | serde
deriving DecidableEq, Repr

/-- Lookup in an association list (first match), as `HashMap::get`. -/
def mapLookup {α β : Type} [DecidableEq α] (k : α) : List (α × β) → Option β
  | [] => none
  | (k', v) :: rest => if k' = k then some v else mapLookup k rest

/-- Insert-or-replace, as `HashMap::insert`. -/
def mapInsert {α β : Type} [DecidableEq α] (k : α) (v : β) : List (α × β) → List (α × β)
  | [] => [(k, v)]
  | (k', v') :: rest => if k' = k then (k, v) :: rest else (k', v') :: mapInsert k v rest

/-- Remove the entry for a key, as `HashMap::remove`. -/
def mapRemove {α β : Type} [DecidableEq α] (k : α) : List (α × β) → List (α × β)
  | [] => []
  | (k', v') :: rest => if k' = k then rest else (k', v') :: mapRemove k rest

/-- The keys of an association list. -/
def mapKeys {α β : Type} (l : List (α × β)) : List α := l.map Prod.fst

/-- Number of entries whose value is `v` (the number of paths mapped to a
file id, in the namespace map). -/
def countVal {α β : Type} [DecidableEq β] (v : β) (l : List (α × β)) : Nat :=
  l.countP (fun p => decide (p.2 = v))

/-! ## The filesystem state (`SDBTreeFs` struct, `src/lib.rs` lines 37-59)

The external collaborators are embedded at their interfaces: `tree` is the
set of key-ids currently present in the `sdbtree` key forest, `enclave`
holds the bytes of the enclave file, and `freed` is the identity
allocator's free set (ids handed back through `dealloc`). -/

structure FsState where
  rootId : Nat
  rootKey : List Nat
  tree : List Nat
  enclave : List Nat
  mappings : List (String × Nat)
  links : List (Nat × Nat)
  freed : List Nat
deriving DecidableEq, Repr

/-- `SDBTreeFs::localize` (`src/lib.rs` lines 131-133):
`id << 20 | (block & ((1 << 20) - 1))` in `u64` arithmetic. -/
def localize (id block : Nat) : Nat :=
  ((id <<< 20) % 2 ^ 64) ||| (block &&& (2 ^ 20 - 1))

/-- The unlink purge loop (`src/lib.rs` lines 200-210): starting at block
index `block`, call `tree.remove(localize(id, block))` and stop at the
first call returning `None`.  Returns the remaining forest contents and
the trace of key-ids passed to `remove` (the final `None`-returning call
included). -/
def purgeBlocks (tree : List Nat) (id block : Nat) : List Nat × List Nat :=
  if h : localize id block ∈ tree then
    let r := purgeBlocks (tree.erase (localize id block)) id (block + 1)
    (r.1, localize id block :: r.2)
  else (tree, [localize id block])
termination_by tree.length
decreasing_by
  have h1 := List.length_erase_of_mem h
  have h2 := List.length_pos.mpr (List.ne_nil_of_mem h)
  omega

/-- `create` (`src/lib.rs` lines 475-487).  `path` is the canonicalized
path and `id` the id handed out by `allocator.alloc()`; `res` is the
pass-through backend's status.  The namespace updates are unconditional:
the code never tests `res`. -/
def create (st : FsState) (path : String) (id : Nat) (_res : Int) : FsState :=
  { st with
    mappings := mapInsert path id st.mappings
    links := mapInsert id ((mapLookup id st.links).getD 0 + 1) st.links }

/-- `link` (`src/lib.rs` lines 261-279); both paths canonicalized, `res`
the backend status. -/
def link (st : FsState) (fromPath toPath : String) (res : Int) : Except Error FsState :=
  if res = 0 then
    match mapLookup fromPath st.mappings with
    | none => .error (.mapping fromPath)
    | some id =>
      .ok { st with
        mappings := mapInsert toPath id st.mappings
        links := mapInsert id ((mapLookup id st.links).getD 0 + 1) st.links }
  else .ok st

/-- `symlink` (`src/lib.rs` lines 222-240): same namespace update as
`link` — the alias shares the target's id. -/
def symlink (st : FsState) (fromPath toPath : String) (res : Int) : Except Error FsState :=
  if res = 0 then
    match mapLookup fromPath st.mappings with
    | none => .error (.mapping fromPath)
    | some id =>
      .ok { st with
        mappings := mapInsert toPath id st.mappings
        links := mapInsert id ((mapLookup id st.links).getD 0 + 1) st.links }
  else .ok st

/-- `rename` (`src/lib.rs` lines 242-259): move the mapping entry, no
link-count change. -/
def rename (st : FsState) (fromPath toPath : String) (res : Int) : Except Error FsState :=
  if res = 0 then
    match mapLookup fromPath st.mappings with
    | none => .error (.mapping fromPath)
    | some id =>
      .ok { st with mappings := mapInsert toPath id (mapRemove fromPath st.mappings) }
  else .ok st

/-- `unlink` (`src/lib.rs` lines 184-215).  On backend success the mapping
entry is removed, `links[id]` is decremented (`entry(id).or_insert(1)`
then `-= 1`), and when the count reaches zero the id is handed to
`allocator.dealloc` and the purge loop runs.  Returns the new state and
the trace of key-ids passed to `tree.remove`. -/
def unlink (st : FsState) (path : String) (res : Int) : Except Error (FsState × List Nat) :=
  if res = 0 then
    match mapLookup path st.mappings with
    | none => .error (.mapping path)
    | some id =>
      if (mapLookup id st.links).getD 1 - 1 = 0 then
        .ok ({ st with
                mappings := mapRemove path st.mappings
                links := mapInsert id ((mapLookup id st.links).getD 1 - 1) st.links
                freed := st.freed ++ [id]
                tree := (purgeBlocks st.tree id 0).1 }, (purgeBlocks st.tree id 0).2)
      else
        .ok ({ st with
                mappings := mapRemove path st.mappings
                links := mapInsert id ((mapLookup id st.links).getD 1 - 1) st.links }, [])
  else .ok (st, [])

/-- The fsync persist loop (`src/lib.rs` lines 434-442): call
`tree.persist_block(localize(id, block))` for increasing block indices,
stopping at the first call returning `false` (`persist_block` returns
`true` exactly when the forest holds a page for the key-id).  `fuel`
bounds the recursion; the spec caps a file at `2^20` blocks. -/
def persistBlocksLoop (tree : List Nat) (id : Nat) : Nat → Nat → List Nat
  | _, 0 => []
  | block, fuel + 1 =>
    let kid := localize id block
    if kid ∈ tree then kid :: persistBlocksLoop tree id (block + 1) fuel
    else [kid]

/-- `fsync` (`src/lib.rs` lines 420-445): backend fsync first, then the
persist loop over the file's key-ids.  Returns the trace of key-ids
passed to `tree.persist_block` (the final `false`-returning call
included). -/
def fsync (st : FsState) (path : String) (res : Int) : Except Error (List Nat) :=
  if res = 0 then
    match mapLookup path st.mappings with
    | none => .error (.mapping path)
    | some id => .ok (persistBlocksLoop st.tree id 0 (2 ^ 20))
  else .ok []

/-- `libc::S_IFMT` (file-type mask in `st_mode`). -/
def S_IFMT : Nat := 0o170000

/-- `libc::S_IFREG` (regular-file type bits). -/
def S_IFREG : Nat := 0o100000

/-- The `st_size` reported by `getattr` (`src/lib.rs` lines 144-172):
when the backend returned 0 and the entry is a regular file, the raw
backing size is corrected for the per-record IV padding; otherwise the
raw size passes through. -/
def getattrSize (blockSz ivLen : Nat) (res : Int) (mode raw : Nat) : Int :=
  if res = 0 ∧ mode &&& S_IFMT = S_IFREG then
    let paddedBlockSize := blockSz + ivLen
    let paddedBlocks := (raw + paddedBlockSize - 1) / paddedBlockSize
    (raw : Int) - (paddedBlocks * ivLen : Nat)
  else (raw : Int)

/-- The backing-file size of a regular file with plaintext length `L`
(spec §3 on-disk layout / P2): `ceil(L / blockSz)` records of
`blockSz + ivLen` bytes, the last record truncated to
`L % blockSz + ivLen` bytes when `L % blockSz ≠ 0`.  This layout is
produced by the external block-IV crypt I/O layer. -/
def backingSize (blockSz ivLen L : Nat) : Nat :=
  if L % blockSz = 0 then (L / blockSz) * (blockSz + ivLen)
  else (L / blockSz) * (blockSz + ivLen) + (L % blockSz + ivLen)

/-- `links[id]`, defaulting to 0 for an absent entry. -/
def linksOf (st : FsState) (id : Nat) : Nat := (mapLookup id st.links).getD 0

/-- `|{p : mapping[p] = id}|` — the number of path entries mapped to `id`. -/
def countPaths (st : FsState) (id : Nat) : Nat := countVal id st.mappings

/-- The P3 link-accounting invariant: `links[id]` equals the number of
paths mapped to `id`, for every id. -/
def LinkInv (st : FsState) : Prop := ∀ id : Nat, linksOf st id = countPaths st id

/-- Representation invariant of the `HashMap` embedding: the namespace
map holds each path at most once. -/
def WF (st : FsState) : Prop := (mapKeys st.mappings).Nodup

/-- The ids occurring in `links` or in the range of `mappings`;
`LinkInv` only has content on these. -/
def relevantIds (st : FsState) : List Nat := mapKeys st.links ++ st.mappings.map Prod.snd

/-! ## Persistence coordinator (`src/persist.rs`) -/

/-- Environment for `load`: the outcome of each external read.  `none`
models the corresponding failure (enclave read error, a metadata file
failing to open or deserialize, `tree.load` rejecting the root). -/
structure LoadEnv where
  enclaveKey : Option (List Nat)
  linksData : Option (List (Nat × Nat))
  mappingsData : Option (List (String × Nat))
  allocatorData : Option (List Nat)
  rootIdData : Option Nat
  treeLoad : Nat → List Nat → Option (List Nat)

/-- `load` (`src/persist.rs` lines 43-70): read the root key from the
enclave, deserialize links, mappings, allocator and root id, call
`tree.load`, and only then assign the in-memory fields — including the
no-op self-assignment `self.root_key = self.root_key`.  Returns the
state paired with the error, if any. -/
def load (st : FsState) (env : LoadEnv) : FsState × Option Error :=
  match env.enclaveKey with
  | none => (st, some .enclave)
  | some rootKey =>
    match env.linksData with
    | none => (st, some .serde)
    | some links =>
      match env.mappingsData with
      | none => (st, some .serde)
      | some mappings =>
        match env.allocatorData with
        | none => (st, some .serde)
        | some allocator =>
          match env.rootIdData with
          | none => (st, some .serde)
          | some rootId =>
            match env.treeLoad rootId rootKey with
            | none => (st, some .storage)
            | some tree =>
              ({ st with
                  tree := tree
                  links := links
                  mappings := mappings
                  freed := allocator
                  rootId := rootId
                  rootKey := st.rootKey }, none)

/-- The observable side effects of `persist`, in the order they are
performed. -/
inductive PEvent where
  | treePersist
  | writeLinks
  | writeMappings
  | writeAllocator
  | writeRootId
  | writeEnclave
deriving DecidableEq, Repr

/-- Environment for `persist`: the result of `tree.persist()` (`none`
models its failure) and the success of each external write. -/
structure PersistEnv where
  treePersist : Option (Nat × List Nat)
  linksWriteOk : Bool
  mappingsWriteOk : Bool
  allocatorWriteOk : Bool
  rootIdWriteOk : Bool
  enclaveWriteOk : Bool

/-- `persist` (`src/persist.rs` lines 72-87): `tree.persist()` yields the
new root id and root key, which are assigned immediately; then the four
metadata files are written in order (links, mappings, allocator, root
id); finally the enclave is rewound and the root key written at offset
0.  Returns the state, the trace of performed effects, and the error, if
any. -/
def persist (st : FsState) (env : PersistEnv) : FsState × List PEvent × Option Error :=
  match env.treePersist with
  | none => (st, [], some .storage)
  | some (rootId, rootKey) =>
    let st1 := { st with rootId := rootId, rootKey := rootKey }
    if env.linksWriteOk then
      if env.mappingsWriteOk then
        if env.allocatorWriteOk then
          if env.rootIdWriteOk then
            if env.enclaveWriteOk then
              ({ st1 with enclave := rootKey ++ st1.enclave.drop rootKey.length },
               [.treePersist, .writeLinks, .writeMappings, .writeAllocator,
                .writeRootId, .writeEnclave], none)
            else
              (st1, [.treePersist, .writeLinks, .writeMappings, .writeAllocator,
                     .writeRootId], some .ioErr)
          else
            (st1, [.treePersist, .writeLinks, .writeMappings, .writeAllocator], some .ioErr)
        else
          (st1, [.treePersist, .writeLinks, .writeMappings], some .ioErr)
      else
        (st1, [.treePersist, .writeLinks], some .ioErr)
    else
      (st1, [.treePersist], some .ioErr)

/-- `is_loadable` (`src/persist.rs` lines 37-41): seek the enclave to its
end and test that the resulting stream position is non-zero. -/
def is_loadable (st : FsState) : Bool := decide (st.enclave.length ≠ 0)

/-- The state-restoring prologue of `mount` (`src/lib.rs` lines 107-111):
load persisted state exactly when `is_loadable` says so.  The `Bool`
records whether `load` was invoked. -/
def mountLoadPhase (st : FsState) (env : LoadEnv) : (FsState × Option Error) × Bool :=
  if is_loadable st then (load st env, true) else ((st, none), false)

/-! ## Concrete states for counterexamples and witnesses -/

/-- Two paths mapped to two distinct ids, one link each. -/
def cexSt : FsState :=
  { rootId := 0, rootKey := [], tree := [], enclave := []
    mappings := [("a", 1), ("b", 2)], links := [(1, 1), (2, 1)], freed := [] }

/-- The state `rename cexSt "a" "b" 0` produces: the entry for `"b"` is
overwritten, id 2 keeps link count 1 with no path left. -/
def cexSt' : FsState :=
  { rootId := 0, rootKey := [], tree := [], enclave := []
    mappings := [("b", 1)], links := [(1, 1), (2, 1)], freed := [] }

/-- A one-file state: path `"f"` mapped to id 1 with one link, and the
forest holding the key for block 0 of id 1. -/
def wSt : FsState :=
  { rootId := 0, rootKey := [], tree := [localize 1 0], enclave := [7]
    mappings := [("f", 1)], links := [(1, 1)], freed := [] }

/-- A load environment whose enclave read fails. -/
def loadEnvFail : LoadEnv :=
  { enclaveKey := none, linksData := none, mappingsData := none
    allocatorData := none, rootIdData := none, treeLoad := fun _ _ => none }

/-- A load environment in which every step succeeds. -/
def loadEnvOk : LoadEnv :=
  { enclaveKey := some [9], linksData := some [(1, 1)], mappingsData := some [("f", 1)]
    allocatorData := some [5], rootIdData := some 4, treeLoad := fun _ _ => some [11] }

/-- A persist environment in which every step succeeds. -/
def persistEnvOk : PersistEnv :=
  { treePersist := some (4, [9]), linksWriteOk := true, mappingsWriteOk := true
    allocatorWriteOk := true, rootIdWriteOk := true, enclaveWriteOk := true }

theorem lookup_insert_self {α β : Type} [DecidableEq α] (k : α) (v : β) (l : List (α × β)) :
    mapLookup k (mapInsert k v l) = some v := by
  induction l with
  | nil => simp [mapInsert, mapLookup]
  | cons p rest ih =>
    obtain ⟨a, b⟩ := p
    by_cases h : a = k
    · simp [mapInsert, h, mapLookup]
    · simp [mapInsert, h, mapLookup, ih]

theorem lookup_insert_ne {α β : Type} [DecidableEq α] {k k' : α} (v : β) (l : List (α × β))
    (h : k' ≠ k) : mapLookup k' (mapInsert k v l) = mapLookup k' l := by
  induction l with
  | nil => simp [mapInsert, mapLookup, Ne.symm h]
  | cons p rest ih =>
    obtain ⟨a, b⟩ := p
    by_cases ha : a = k
    · subst ha
      simp [mapInsert, mapLookup, Ne.symm h]
    · simp [mapInsert, ha, mapLookup, ih]

theorem lookup_remove_ne {α β : Type} [DecidableEq α] {k k' : α} (l : List (α × β))
    (h : k' ≠ k) : mapLookup k' (mapRemove k l) = mapLookup k' l := by
  induction l with
  | nil => simp [mapRemove]
  | cons p rest ih =>
    obtain ⟨a, b⟩ := p
    by_cases ha : a = k
    · subst ha
      simp [mapRemove, mapLookup, Ne.symm h]
    · simp [mapRemove, ha, mapLookup, ih]

theorem lookup_eq_none_of_not_mem_keys {α β : Type} [DecidableEq α] {k : α}
    {l : List (α × β)} (h : k ∉ mapKeys l) : mapLookup k l = none := by
  induction l with
  | nil => rfl
  | cons p rest ih =>
    obtain ⟨a, b⟩ := p
    simp only [mapKeys, List.map_cons, List.mem_cons, not_or] at h
    simp [mapLookup, Ne.symm h.1, ih (by simpa [mapKeys] using h.2)]

theorem lookup_remove_self {α β : Type} [DecidableEq α] {k : α} {l : List (α × β)}
    (hnd : (mapKeys l).Nodup) : mapLookup k (mapRemove k l) = none := by
  induction l with
  | nil => rfl
  | cons p rest ih =>
    obtain ⟨a, b⟩ := p
    simp only [mapKeys, List.map_cons, List.nodup_cons] at hnd
    by_cases ha : a = k
    · subst ha
      simp only [mapRemove, if_pos rfl]
      exact lookup_eq_none_of_not_mem_keys (by simpa [mapKeys] using hnd.1)
    · simp [mapRemove, ha, mapLookup, ih hnd.2]

theorem mem_keys_insert {α β : Type} [DecidableEq α] {k' k : α} (v : β) (l : List (α × β)) :
    k' ∈ mapKeys (mapInsert k v l) ↔ k' = k ∨ k' ∈ mapKeys l := by
  induction l with
  | nil => simp [mapInsert, mapKeys]
  | cons p rest ih =>
    obtain ⟨a, b⟩ := p
    by_cases ha : a = k
    · subst ha
      have hred : mapInsert a v ((a, b) :: rest) = (a, v) :: rest := by simp [mapInsert]
      rw [hred]
      simp only [mapKeys, List.map_cons, List.mem_cons]
      tauto
    · simp only [mapInsert, if_neg ha, mapKeys, List.map_cons, List.mem_cons]
      rw [show (k' ∈ List.map Prod.fst (mapInsert k v rest)) ↔ _ from ih]
      tauto

theorem keys_insert_nodup {α β : Type} [DecidableEq α] (k : α) (v : β)
    {l : List (α × β)} (hnd : (mapKeys l).Nodup) : (mapKeys (mapInsert k v l)).Nodup := by
  induction l with
  | nil => simp [mapInsert, mapKeys]
  | cons p rest ih =>
    obtain ⟨a, b⟩ := p
    simp only [mapKeys, List.map_cons, List.nodup_cons] at hnd
    by_cases ha : a = k
    · subst ha
      simp only [mapInsert, if_pos rfl, mapKeys, List.map_cons]
      exact List.nodup_cons.mpr ⟨hnd.1, hnd.2⟩
    · simp only [mapInsert, if_neg ha, mapKeys, List.map_cons]
      refine List.nodup_cons.mpr ⟨?_, ih hnd.2⟩
      rw [show (a ∈ List.map Prod.fst (mapInsert k v rest)) ↔ _ from mem_keys_insert v rest]
      push_neg
      exact ⟨ha, by simpa [mapKeys] using hnd.1⟩

theorem keys_remove_sublist {α β : Type} [DecidableEq α] (k : α) (l : List (α × β)) :
    (mapKeys (mapRemove k l)).Sublist (mapKeys l) := by
  induction l with
  | nil => simp [mapRemove]
  | cons p rest ih =>
    obtain ⟨a, b⟩ := p
    by_cases ha : a = k
    · simp only [mapRemove, if_pos ha, mapKeys, List.map_cons]
      exact List.sublist_cons_self a (List.map Prod.fst rest)
    · simp only [mapRemove, if_neg ha, mapKeys, List.map_cons]
      exact (show (mapKeys (mapRemove k rest)).Sublist (mapKeys rest) from ih).cons₂ a

theorem keys_remove_nodup {α β : Type} [DecidableEq α] (k : α)
    {l : List (α × β)} (hnd : (mapKeys l).Nodup) : (mapKeys (mapRemove k l)).Nodup :=
  (keys_remove_sublist k l).nodup hnd

theorem countVal_insert {α β : Type} [DecidableEq α] [DecidableEq β] (k : α) (v w : β)
    {l : List (α × β)} (h : mapLookup k l = none) :
    countVal w (mapInsert k v l) = countVal w l + (if v = w then 1 else 0) := by
  induction l with
  | nil => simp [mapInsert, countVal, List.countP_cons]
  | cons p rest ih =>
    obtain ⟨a, b⟩ := p
    simp only [mapLookup] at h
    by_cases ha : a = k
    · simp [ha] at h
    · simp only [if_neg ha] at h
      simp only [mapInsert, if_neg ha, countVal, List.countP_cons]
      have := ih h
      simp only [countVal] at this
      omega

theorem countVal_remove {α β : Type} [DecidableEq α] [DecidableEq β] (k : α) {w : β} (u : β)
    {l : List (α × β)} (h : mapLookup k l = some w) :
    countVal u l = countVal u (mapRemove k l) + (if w = u then 1 else 0) := by
  induction l with
  | nil => simp [mapLookup] at h
  | cons p rest ih =>
    obtain ⟨a, b⟩ := p
    simp only [mapLookup] at h
    by_cases ha : a = k
    · simp only [if_pos ha] at h
      obtain rfl : b = w := by simpa using h
      simp only [mapRemove, if_pos ha, countVal, List.countP_cons, decide_eq_true_eq]
    · simp only [if_neg ha] at h
      have := ih h
      simp only [countVal, List.countP_cons, decide_eq_true_eq] at this ⊢
      simp only [mapRemove, if_neg ha, List.countP_cons, decide_eq_true_eq]
      omega

theorem one_le_countVal_of_lookup {α β : Type} [DecidableEq α] [DecidableEq β] {k : α} {w : β}
    {l : List (α × β)} (h : mapLookup k l = some w) : 1 ≤ countVal w l := by
  induction l with
  | nil => simp [mapLookup] at h
  | cons p rest ih =>
    obtain ⟨a, b⟩ := p
    simp only [mapLookup] at h
    by_cases ha : a = k
    · simp only [if_pos ha] at h
      obtain rfl : b = w := by simpa using h
      simp [countVal, List.countP_cons]
    · simp only [if_neg ha] at h
      have := ih h
      simp only [countVal, List.countP_cons, decide_eq_true_eq] at this ⊢
      omega

theorem countVal_eq_zero_of_not_mem {α β : Type} [DecidableEq β] {v : β}
    {l : List (α × β)} (h : v ∉ l.map Prod.snd) : countVal v l = 0 := by
  induction l with
  | nil => rfl
  | cons p rest ih =>
    simp only [List.map_cons, List.mem_cons, not_or] at h
    simp only [countVal, List.countP_cons]
    have := ih h.2
    simp only [countVal] at this
    have hne : ¬(p.2 = v) := fun hh => h.1 hh.symm
    simp [this, hne]

/-! ## Arithmetic of `localize` -/

/-- The `u64` expression `id << 20 | (block & ((1 << 20) - 1))` in plain
arithmetic: the shifted id (wrapped at 64 bits) plus the masked block
index. -/
theorem localize_eq (id block : Nat) :
    localize id block = 2 ^ 20 * (id % 2 ^ 44) + block % 2 ^ 20 := by
  unfold localize
  rw [Nat.shiftLeft_eq, Nat.and_pow_two_sub_one_eq_mod]
  have h64 : (2 : Nat) ^ 64 = 2 ^ 44 * 2 ^ 20 := by norm_num
  rw [h64, Nat.mul_mod_mul_right, Nat.mul_comm (id % 2 ^ 44) (2 ^ 20)]
  exact (Nat.mul_add_lt_is_or (Nat.mod_lt block (by norm_num)) _).symm

theorem localize_block_injective {id b b' : Nat} (hb : b < 2 ^ 20) (hb' : b' < 2 ^ 20)
    (h : localize id b = localize id b') : b = b' := by
  rw [localize_eq, localize_eq, Nat.mod_eq_of_lt hb, Nat.mod_eq_of_lt hb'] at h
  exact Nat.add_left_cancel h

/-- Call trace of the unlink purge loop: if the forest holds the key-ids
of blocks `b, b+1, …, b+k-1` but not of block `b+k`, the loop starting at
`b` calls `remove` on exactly the key-ids of blocks `b, …, b+k`. -/
theorem purgeBlocks_calls (id : Nat) :
    ∀ (k : Nat) (tree : List Nat) (b : Nat), b + k < 2 ^ 20 →
      (∀ j, j < k → localize id (b + j) ∈ tree) →
      localize id (b + k) ∉ tree →
      (purgeBlocks tree id b).2 = (List.range (k + 1)).map (fun j => localize id (b + j)) := by
  intro k
  induction k with
  | zero =>
    intro tree b _ _ hnot
    rw [purgeBlocks]
    rw [dif_neg (by simpa using hnot)]
    rw [show List.range 1 = [0] from rfl]
    simp
  | succ k ih =>
    intro tree b hlt hmem hnot
    have h0 : localize id b ∈ tree := by simpa using hmem 0 (Nat.succ_pos k)
    rw [purgeBlocks, dif_pos h0]
    have hrec := ih (tree.erase (localize id b)) (b + 1) (by omega)
      (fun j hj => by
        have hin : localize id (b + 1 + j) ∈ tree := by
          have := hmem (j + 1) (by omega)
          simpa [Nat.add_assoc, Nat.add_comm 1 j] using this
        refine (List.mem_erase_of_ne ?_).mpr hin
        intro hcontra
        have : b + 1 + j = b := localize_block_injective (by omega) (by omega) hcontra
        omega)
      (by
        intro hcontra
        have hin := List.mem_of_mem_erase hcontra
        have : localize id (b + (k + 1)) ∈ tree := by
          simpa [Nat.add_assoc, Nat.add_comm 1 k] using hin
        exact hnot this)
    show localize id b :: (purgeBlocks (tree.erase (localize id b)) id (b + 1)).2 =
      List.map (fun j => localize id (b + j)) (List.range (k + 1 + 1))
    rw [List.range_succ_eq_map, List.map_cons, List.map_map, hrec]
    congr 1
    refine List.map_congr_left ?_
    intro j _
    simp only [Function.comp_apply]
    exact congrArg (localize id) (by omega)

/-- Call trace of the fsync persist loop: analogous to
`purgeBlocks_calls`, with explicit fuel. -/
theorem persistBlocksLoop_calls (id : Nat) (tree : List Nat) :
    ∀ (k fuel b : Nat), k < fuel →
      (∀ j, j < k → localize id (b + j) ∈ tree) →
      localize id (b + k) ∉ tree →
      persistBlocksLoop tree id b fuel = (List.range (k + 1)).map (fun j => localize id (b + j)) := by
  intro k
  induction k with
  | zero =>
    intro fuel b hfuel _ hnot
    obtain ⟨fuel', rfl⟩ : ∃ f, fuel = f + 1 := ⟨fuel - 1, by omega⟩
    rw [persistBlocksLoop]
    rw [if_neg (by simpa using hnot)]
    rw [show List.range 1 = [0] from rfl]
    simp
  | succ k ih =>
    intro fuel b hfuel hmem hnot
    obtain ⟨fuel', rfl⟩ : ∃ f, fuel = f + 1 := ⟨fuel - 1, by omega⟩
    have h0 : localize id b ∈ tree := by simpa using hmem 0 (Nat.succ_pos k)
    rw [persistBlocksLoop, if_pos h0]
    have hrec := ih fuel' (b + 1) (by omega)
      (fun j hj => by
        have := hmem (j + 1) (by omega)
        simpa [Nat.add_assoc, Nat.add_comm 1 j] using this)
      (by
        intro hcontra
        have : localize id (b + (k + 1)) ∈ tree := by
          simpa [Nat.add_assoc, Nat.add_comm 1 k] using hcontra
        exact hnot this)
    show localize id b :: persistBlocksLoop tree id (b + 1) fuel' =
      List.map (fun j => localize id (b + j)) (List.range (k + 1 + 1))
    rw [List.range_succ_eq_map, List.map_cons, List.map_map, hrec]
    congr 1
    refine List.map_congr_left ?_
    intro j _
    simp only [Function.comp_apply]
    exact congrArg (localize id) (by omega)

/-- C4: `localize(id, b) = (id << 20) | (b & ((1 << 20) - 1))` in `u64`
arithmetic, and on ids below `2^44` and block indices below `2^20` the
map is injective. -/
theorem localize_formula_and_injective (id₁ b₁ id₂ b₂ : Nat)
    (h₁ : id₁ < 2 ^ 44) (h₂ : id₂ < 2 ^ 44) (hb₁ : b₁ < 2 ^ 20) (hb₂ : b₂ < 2 ^ 20) :
    localize id₁ b₁ = ((id₁ <<< 20) % 2 ^ 64) ||| (b₁ &&& (2 ^ 20 - 1)) ∧
    (localize id₁ b₁ = localize id₂ b₂ → id₁ = id₂ ∧ b₁ = b₂) := by
  refine ⟨rfl, fun heq => ?_⟩
  rw [localize_eq, localize_eq, Nat.mod_eq_of_lt h₁, Nat.mod_eq_of_lt h₂,
    Nat.mod_eq_of_lt hb₁, Nat.mod_eq_of_lt hb₂] at heq
  have hid : id₁ = id₂ := by
    have hb₁' : b₁ < 2 ^ 20 := hb₁
    have hb₂' : b₂ < 2 ^ 20 := hb₂
    by_contra hne
    rcases Nat.lt_or_ge id₁ id₂ with hlt | hge
    · have : 2 ^ 20 * id₁ + 2 ^ 20 ≤ 2 ^ 20 * id₂ := by
        calc 2 ^ 20 * id₁ + 2 ^ 20 = 2 ^ 20 * (id₁ + 1) := by ring
        _ ≤ 2 ^ 20 * id₂ := Nat.mul_le_mul_left _ hlt
      omega
    · have hlt : id₂ < id₁ := Nat.lt_of_le_of_ne hge (fun hh => hne hh.symm)
      have : 2 ^ 20 * id₂ + 2 ^ 20 ≤ 2 ^ 20 * id₁ := by
        calc 2 ^ 20 * id₂ + 2 ^ 20 = 2 ^ 20 * (id₂ + 1) := by ring
        _ ≤ 2 ^ 20 * id₁ := Nat.mul_le_mul_left _ hlt
      omega
  subst hid
  exact ⟨rfl, Nat.add_left_cancel heq⟩

/-- Witness for `localize_formula_and_injective` at id 3, blocks 5 and 5. -/
theorem localize_formula_and_injective_witness :
    localize 3 5 = ((3 <<< 20) % 2 ^ 64) ||| (5 &&& (2 ^ 20 - 1)) ∧
    (localize 3 5 = localize 3 5 → 3 = 3 ∧ 5 = 5) :=
  localize_formula_and_injective 3 5 3 5 (by norm_num) (by norm_num)
    (by norm_num) (by norm_num)

/-! ## Link accounting (P3) -/

/-- `LinkInv` only has content on the ids occurring in the state, so it
is equivalent to a decidable bounded form. -/
theorem linkInv_iff (st : FsState) :
    LinkInv st ↔ ∀ id ∈ relevantIds st, linksOf st id = countPaths st id := by
  constructor
  · intro h id _
    exact h id
  · intro h id
    by_cases hid : id ∈ relevantIds st
    · exact h id hid
    · simp only [relevantIds, List.mem_append, not_or] at hid
      have h1 : mapLookup id st.links = none := lookup_eq_none_of_not_mem_keys hid.1
      have h2 : countVal id st.mappings = 0 := countVal_eq_zero_of_not_mem hid.2
      simp [linksOf, countPaths, h1, h2]

/-- Inserting a fresh path alias for `id` and bumping `links[id]`
(the shared update of `create`, `link` and `symlink`) preserves key
uniqueness and link accounting. -/
theorem wf_linkInv_insert_alias (st : FsState) (path : String) (id : Nat)
    (hfresh : mapLookup path st.mappings = none) (hwf : WF st) (hinv : LinkInv st) :
    (mapKeys (mapInsert path id st.mappings)).Nodup ∧
    ∀ j : Nat,
      (mapLookup j (mapInsert id ((mapLookup id st.links).getD 0 + 1) st.links)).getD 0
        = countVal j (mapInsert path id st.mappings) := by
  refine ⟨keys_insert_nodup path id hwf, fun j => ?_⟩
  have hinvj := hinv j
  simp only [LinkInv, linksOf, countPaths] at hinvj
  rw [countVal_insert path id j hfresh]
  by_cases hj : j = id
  · subst hj
    rw [lookup_insert_self]
    simp [hinvj]
  · rw [lookup_insert_ne _ _ hj]
    have : ¬(id = j) := fun hh => hj hh.symm
    simp [hinvj, this]

/-- Moving a mapping entry to a fresh destination path (the update of
`rename`) preserves key uniqueness and link accounting. -/
theorem wf_linkInv_rename (st : FsState) (fromPath toPath : String) (id : Nat)
    (hf : mapLookup fromPath st.mappings = some id)
    (ht : mapLookup toPath st.mappings = none)
    (hwf : WF st) (hinv : LinkInv st) :
    (mapKeys (mapInsert toPath id (mapRemove fromPath st.mappings))).Nodup ∧
    ∀ j : Nat,
      (mapLookup j st.links).getD 0
        = countVal j (mapInsert toPath id (mapRemove fromPath st.mappings)) := by
  have hne : toPath ≠ fromPath := by
    intro hh
    rw [hh, hf] at ht
    cases ht
  have hlr : mapLookup toPath (mapRemove fromPath st.mappings) = none := by
    rw [lookup_remove_ne _ hne]
    exact ht
  refine ⟨keys_insert_nodup _ _ (keys_remove_nodup _ hwf), fun j => ?_⟩
  have hinvj := hinv j
  simp only [LinkInv, linksOf, countPaths] at hinvj
  rw [countVal_insert _ _ _ hlr]
  have hrem := countVal_remove fromPath j hf
  by_cases hj : id = j <;> simp [hj] at hrem ⊢ <;> omega

/-- Removing a mapped path and decrementing its id's link count (the
update of `unlink`) preserves key uniqueness and link accounting. -/
theorem wf_linkInv_unlink (st : FsState) (path : String) (id : Nat)
    (hm : mapLookup path st.mappings = some id) (hwf : WF st) (hinv : LinkInv st) :
    (mapKeys (mapRemove path st.mappings)).Nodup ∧
    ∀ j : Nat,
      (mapLookup j (mapInsert id ((mapLookup id st.links).getD 1 - 1) st.links)).getD 0
        = countVal j (mapRemove path st.mappings) := by
  refine ⟨keys_remove_nodup _ hwf, fun j => ?_⟩
  have hcount : 1 ≤ countVal id st.mappings := one_le_countVal_of_lookup hm
  have hinvid := hinv id
  simp only [LinkInv, linksOf, countPaths] at hinvid
  have hrem := countVal_remove path j hm
  by_cases hj : j = id
  · subst hj
    rw [lookup_insert_self]
    rcases hcase : mapLookup j st.links with _ | c
    · rw [hcase] at hinvid
      simp at hinvid
      omega
    · rw [hcase] at hinvid
      simp at hinvid
      simp at hrem
      simp
      omega
  · rw [lookup_insert_ne _ _ hj]
    have hinvj := hinv j
    simp only [LinkInv, linksOf, countPaths] at hinvj
    have : ¬(id = j) := fun hh => hj hh.symm
    simp [this] at hrem
    omega

/-- C1 (amended): the link-accounting invariant
`links[id] = |{p : mapping[p] = id}|` is preserved by every successful
`unlink`, and by successful `create`, `link`, `symlink` and `rename`
provided the created (resp. destination) canonical path is not already
present in `mappings`; when the destination already exists, its old id's
count is not adjusted and the invariant can break (see the rename
counterexample). -/
theorem link_accounting_preserved (st : FsState) (cPath uPath fromPath toPath : String)
    (id : Nat) (res : Int) (hwf : WF st) (hinv : LinkInv st) :
    (mapLookup cPath st.mappings = none →
      WF (create st cPath id res) ∧ LinkInv (create st cPath id res)) ∧
    (∀ st', mapLookup toPath st.mappings = none →
      link st fromPath toPath res = .ok st' → WF st' ∧ LinkInv st') ∧
    (∀ st', mapLookup toPath st.mappings = none →
      symlink st fromPath toPath res = .ok st' → WF st' ∧ LinkInv st') ∧
    (∀ st', mapLookup toPath st.mappings = none →
      rename st fromPath toPath res = .ok st' → WF st' ∧ LinkInv st') ∧
    (∀ st' calls, unlink st uPath res = .ok (st', calls) → WF st' ∧ LinkInv st') := by
  refine ⟨?_, ?_, ?_, ?_, ?_⟩
  · intro hfresh
    have h := wf_linkInv_insert_alias st cPath id hfresh hwf hinv
    exact ⟨h.1, h.2⟩
  · intro st' hfresh hok
    unfold link at hok
    by_cases hres : res = 0
    · rw [if_pos hres] at hok
      rcases hlf : mapLookup fromPath st.mappings with _ | fid
      · rw [hlf] at hok
        cases hok
      · rw [hlf] at hok
        simp only [Except.ok.injEq] at hok
        subst hok
        have h := wf_linkInv_insert_alias st toPath fid hfresh hwf hinv
        exact ⟨h.1, h.2⟩
    · rw [if_neg hres] at hok
      simp only [Except.ok.injEq] at hok
      subst hok
      exact ⟨hwf, hinv⟩
  · intro st' hfresh hok
    unfold symlink at hok
    by_cases hres : res = 0
    · rw [if_pos hres] at hok
      rcases hlf : mapLookup fromPath st.mappings with _ | fid
      · rw [hlf] at hok
        cases hok
      · rw [hlf] at hok
        simp only [Except.ok.injEq] at hok
        subst hok
        have h := wf_linkInv_insert_alias st toPath fid hfresh hwf hinv
        exact ⟨h.1, h.2⟩
    · rw [if_neg hres] at hok
      simp only [Except.ok.injEq] at hok
      subst hok
      exact ⟨hwf, hinv⟩
  · intro st' hfresh hok
    unfold rename at hok
    by_cases hres : res = 0
    · rw [if_pos hres] at hok
      rcases hlf : mapLookup fromPath st.mappings with _ | fid
      · rw [hlf] at hok
        cases hok
      · rw [hlf] at hok
        simp only [Except.ok.injEq] at hok
        subst hok
        have h := wf_linkInv_rename st fromPath toPath fid hlf hfresh hwf hinv
        exact ⟨h.1, h.2⟩
    · rw [if_neg hres] at hok
      simp only [Except.ok.injEq] at hok
      subst hok
      exact ⟨hwf, hinv⟩
  · intro st' calls hok
    unfold unlink at hok
    by_cases hres : res = 0
    · rw [if_pos hres] at hok
      rcases hlp : mapLookup uPath st.mappings with _ | uid
      · rw [hlp] at hok
        cases hok
      · rw [hlp] at hok
        have h := wf_linkInv_unlink st uPath uid hlp hwf hinv
        by_cases hc : (mapLookup uid st.links).getD 1 - 1 = 0
        · simp only [if_pos hc, Except.ok.injEq, Prod.mk.injEq] at hok
          obtain ⟨rfl, -⟩ := hok
          exact ⟨h.1, h.2⟩
        · simp only [if_neg hc, Except.ok.injEq, Prod.mk.injEq] at hok
          obtain ⟨rfl, -⟩ := hok
          exact ⟨h.1, h.2⟩
    · rw [if_neg hres] at hok
      simp only [Except.ok.injEq, Prod.mk.injEq] at hok
      obtain ⟨rfl, -⟩ := hok
      exact ⟨hwf, hinv⟩

/-- Witness for `link_accounting_preserved` on a concrete one-file
state, a fresh path `"g"`, and backend status 0. -/
theorem link_accounting_preserved_witness :
    (mapLookup "g" wSt.mappings = none →
      WF (create wSt "g" 2 0) ∧ LinkInv (create wSt "g" 2 0)) ∧
    (∀ st', mapLookup "g" wSt.mappings = none →
      link wSt "f" "g" 0 = .ok st' → WF st' ∧ LinkInv st') ∧
    (∀ st', mapLookup "g" wSt.mappings = none →
      symlink wSt "f" "g" 0 = .ok st' → WF st' ∧ LinkInv st') ∧
    (∀ st', mapLookup "g" wSt.mappings = none →
      rename wSt "f" "g" 0 = .ok st' → WF st' ∧ LinkInv st') ∧
    (∀ st' calls, unlink wSt "f" 0 = .ok (st', calls) → WF st' ∧ LinkInv st') :=
  link_accounting_preserved wSt "g" "f" "f" "g" 2 0
    (show (mapKeys wSt.mappings).Nodup by decide)
    ((linkInv_iff wSt).mpr (by decide))

/-- C1 counterexample: from a state satisfying the link-accounting
invariant, a successful `rename` onto an already-mapped destination path
produces a state violating it (id 2 keeps `links[2] = 1` but no path
maps to 2). -/
theorem rename_overwrite_breaks_link_accounting :
    (WF cexSt ∧ LinkInv cexSt) ∧
    rename cexSt "a" "b" 0 = .ok cexSt' ∧
    ¬ LinkInv cexSt' := by
  refine ⟨⟨show (mapKeys cexSt.mappings).Nodup by decide,
    (linkInv_iff cexSt).mpr (by decide)⟩, rfl, ?_⟩
  intro h
  have h2 := h 2
  revert h2
  decide

/-! ## Unlink postcondition and fsync behaviour -/

/-- C3: on a successful `unlink` of a path mapped to `id`, the mapping
entry is removed and `links[id]` drops by one; when the count reaches
zero the id is handed to the allocator and `tree.remove` is called on
`localize(id, b)` for `b = 0, 1, …` up to the first block whose key-id
is absent from the forest; otherwise neither allocator nor forest is
touched. -/
theorem unlink_last_link_secure_delete (st : FsState) (path : String) (id c b0 : Nat)
    (hwf : WF st)
    (hm : mapLookup path st.mappings = some id)
    (hl : mapLookup id st.links = some (c + 1))
    (hmem : ∀ b, b < b0 → localize id b ∈ st.tree)
    (hnot : localize id b0 ∉ st.tree)
    (hb0 : b0 < 2 ^ 20) :
    ∃ st' calls, unlink st path 0 = .ok (st', calls) ∧
      mapLookup path st'.mappings = none ∧
      mapLookup id st'.links = some c ∧
      (c = 0 →
        id ∈ st'.freed ∧
        calls = (List.range (b0 + 1)).map (fun b => localize id b)) ∧
      (c ≠ 0 → calls = [] ∧ st'.freed = st.freed ∧ st'.tree = st.tree) := by
  have hcalls : (purgeBlocks st.tree id 0).2
      = (List.range (b0 + 1)).map (fun b => localize id b) := by
    have h := purgeBlocks_calls id b0 st.tree 0 (by omega)
      (fun j hj => by simpa using hmem j hj) (by simpa using hnot)
    rw [h]
    refine List.map_congr_left ?_
    intro j _
    rw [Nat.zero_add]
  unfold unlink
  rw [if_pos rfl]
  simp only [hm]
  rw [hl]
  have hgetD : (some (c + 1) : Option Nat).getD 1 - 1 = c := by simp
  rw [hgetD]
  by_cases hc : c = 0
  · rw [if_pos hc]
    refine ⟨_, _, rfl, ?_, ?_, fun _ => ⟨?_, ?_⟩, fun hne => absurd hc hne⟩
    · exact lookup_remove_self hwf
    · exact lookup_insert_self id c st.links
    · simp
    · exact hcalls
  · rw [if_neg hc]
    refine ⟨_, _, rfl, ?_, ?_, fun h0 => absurd h0 hc, fun _ => ⟨rfl, rfl, rfl⟩⟩
    · exact lookup_remove_self hwf
    · exact lookup_insert_self id c st.links

/-- Witness for `unlink_last_link_secure_delete`: the one-file state
`wSt`, where unlinking `"f"` drops the last link of id 1 and purges the
forest. -/
theorem unlink_last_link_secure_delete_witness :
    ∃ st' calls, unlink wSt "f" 0 = .ok (st', calls) ∧
      mapLookup "f" st'.mappings = none ∧
      mapLookup 1 st'.links = some 0 ∧
      (0 = 0 →
        1 ∈ st'.freed ∧
        calls = (List.range (1 + 1)).map (fun b => localize 1 b)) ∧
      (0 ≠ 0 → calls = [] ∧ st'.freed = wSt.freed ∧ st'.tree = wSt.tree) :=
  unlink_last_link_secure_delete wSt "f" 1 0 1
    (show (mapKeys wSt.mappings).Nodup by decide)
    (by decide) (by decide)
    (fun b hb => by
      have hb0 : b = 0 := by omega
      subst hb0
      decide)
    (by decide) (by norm_num)

/-- C8: on a successful backend fsync of a path mapped to `id`, the
adapter calls `tree.persist_block(localize(id, b))` for `b = 0, 1, …` up
to the first block whose key-id has no page in the forest; an unmapped
path yields `MappingError(path)`. -/
theorem fsync_persists_blocks (st : FsState) (path : String) (res : Int) (id b0 : Nat)
    (hres : res = 0) :
    (mapLookup path st.mappings = some id →
      (∀ b, b < b0 → localize id b ∈ st.tree) →
      localize id b0 ∉ st.tree → b0 < 2 ^ 20 →
      fsync st path res = .ok ((List.range (b0 + 1)).map (fun b => localize id b))) ∧
    (mapLookup path st.mappings = none →
      fsync st path res = .error (.mapping path)) := by
  subst hres
  constructor
  · intro hm hmem hnot hb0
    unfold fsync
    rw [if_pos rfl]
    simp only [hm]
    have h := persistBlocksLoop_calls id st.tree b0 (2 ^ 20) 0 hb0
      (fun j hj => by simpa using hmem j hj) (by simpa using hnot)
    rw [h]
    refine congrArg Except.ok (List.map_congr_left ?_)
    intro j _
    rw [Nat.zero_add]
  · intro hm
    unfold fsync
    rw [if_pos rfl]
    simp only [hm]

/-- Witness for `fsync_persists_blocks` on the one-file state `wSt`. -/
theorem fsync_persists_blocks_witness :
    (mapLookup "f" wSt.mappings = some 1 →
      (∀ b, b < 1 → localize 1 b ∈ wSt.tree) →
      localize 1 1 ∉ wSt.tree → 1 < 2 ^ 20 →
      fsync wSt "f" 0 = .ok ((List.range (1 + 1)).map (fun b => localize 1 b))) ∧
    (mapLookup "f" wSt.mappings = none →
      fsync wSt "f" 0 = .error (.mapping "f")) :=
  fsync_persists_blocks wSt "f" 0 1 1 rfl

/-! ## Getattr size correction (P2) -/

/-- C2: for a regular file (and backend status 0) `getattr` reports
`raw - ceil(raw / (BLOCK_SZ + IV_LEN)) * IV_LEN`; on the backing size of
a plaintext of length `L` this is exactly `L`; non-regular entries pass
the raw size through. -/
theorem getattr_size_correction (blockSz ivLen mode raw L : Nat)
    (hB : 0 < blockSz) (hreg : mode &&& S_IFMT = S_IFREG) :
    getattrSize blockSz ivLen 0 mode raw =
      (raw : Int) - (((raw + (blockSz + ivLen) - 1) / (blockSz + ivLen)) * ivLen : Nat) ∧
    getattrSize blockSz ivLen 0 mode (backingSize blockSz ivLen L) = (L : Int) ∧
    (∀ mode' raw' : Nat, mode' &&& S_IFMT ≠ S_IFREG →
      getattrSize blockSz ivLen 0 mode' raw' = (raw' : Int)) := by
  refine ⟨?_, ?_, ?_⟩
  · unfold getattrSize
    rw [if_pos ⟨rfl, hreg⟩]
  · unfold getattrSize
    rw [if_pos ⟨rfl, hreg⟩]
    show ((backingSize blockSz ivLen L : Nat) : Int)
        - (((backingSize blockSz ivLen L + (blockSz + ivLen) - 1) / (blockSz + ivLen))
            * ivLen : Nat)
      = (L : Int)
    have hBV : 0 < blockSz + ivLen := by omega
    have hLqr : blockSz * (L / blockSz) + L % blockSz = L := Nat.div_add_mod L blockSz
    have hrB : L % blockSz < blockSz := Nat.mod_lt _ hB
    by_cases h0 : L % blockSz = 0
    · have hbs : backingSize blockSz ivLen L = (L / blockSz) * (blockSz + ivLen) := by
        unfold backingSize
        rw [if_pos h0]
      rw [hbs]
      have hpb : ((L / blockSz) * (blockSz + ivLen) + (blockSz + ivLen) - 1) / (blockSz + ivLen)
          = L / blockSz := by
        have hnum : (L / blockSz) * (blockSz + ivLen) + (blockSz + ivLen) - 1
            = (blockSz + ivLen) * (L / blockSz) + (blockSz + ivLen - 1) := by
          have hc : (L / blockSz) * (blockSz + ivLen) = (blockSz + ivLen) * (L / blockSz) :=
            Nat.mul_comm _ _
          omega
        rw [hnum, Nat.mul_add_div hBV]
        have hz : (blockSz + ivLen - 1) / (blockSz + ivLen) = 0 :=
          Nat.div_eq_of_lt (by omega)
        rw [hz]
        omega
      rw [hpb]
      have hraw : (L / blockSz) * (blockSz + ivLen) = L + (L / blockSz) * ivLen := by
        have h1 : (L / blockSz) * (blockSz + ivLen)
            = (L / blockSz) * blockSz + (L / blockSz) * ivLen := Nat.mul_add _ _ _
        have h2 : blockSz * (L / blockSz) = (L / blockSz) * blockSz := Nat.mul_comm _ _
        omega
      rw [hraw]
      push_cast
      ring
    · have hbs : backingSize blockSz ivLen L
          = (L / blockSz) * (blockSz + ivLen) + (L % blockSz + ivLen) := by
        unfold backingSize
        rw [if_neg h0]
      rw [hbs]
      have hpb : ((L / blockSz) * (blockSz + ivLen) + (L % blockSz + ivLen)
            + (blockSz + ivLen) - 1) / (blockSz + ivLen) = L / blockSz + 1 := by
        have hnum : (L / blockSz) * (blockSz + ivLen) + (L % blockSz + ivLen)
              + (blockSz + ivLen) - 1
            = (blockSz + ivLen) * (L / blockSz + 1) + (ivLen + L % blockSz - 1) := by
          have hc : (blockSz + ivLen) * (L / blockSz + 1)
              = (L / blockSz) * (blockSz + ivLen) + (blockSz + ivLen) := by ring
          omega
        rw [hnum, Nat.mul_add_div hBV]
        have hz : (ivLen + L % blockSz - 1) / (blockSz + ivLen) = 0 :=
          Nat.div_eq_of_lt (by omega)
        rw [hz]
      rw [hpb]
      have hraw : (L / blockSz) * (blockSz + ivLen) + (L % blockSz + ivLen)
          = L + (L / blockSz + 1) * ivLen := by
        have h1 : (L / blockSz) * (blockSz + ivLen)
            = (L / blockSz) * blockSz + (L / blockSz) * ivLen := Nat.mul_add _ _ _
        have h2 : blockSz * (L / blockSz) = (L / blockSz) * blockSz := Nat.mul_comm _ _
        have h3 : (L / blockSz + 1) * ivLen = (L / blockSz) * ivLen + ivLen := by ring
        omega
      rw [hraw]
      push_cast
      ring
  · intro mode' raw' hmode
    unfold getattrSize
    rw [if_neg (fun hh => hmode hh.2)]

/-- Witness for `getattr_size_correction` with block size 16, IV length
4, regular mode `0o100644 = 33188`, raw size 37 and plaintext length 20. -/
theorem getattr_size_correction_witness :
    getattrSize 16 4 0 33188 37 =
      (37 : Int) - (((37 + (16 + 4) - 1) / (16 + 4)) * 4 : Nat) ∧
    getattrSize 16 4 0 33188 (backingSize 16 4 20) = (20 : Int) ∧
    (∀ mode' raw' : Nat, mode' &&& S_IFMT ≠ S_IFREG →
      getattrSize 16 4 0 mode' raw' = (raw' : Int)) :=
  getattr_size_correction 16 4 33188 37 20 (by norm_num) (by decide)

/-! ## Backend-status handling (implicit claim) -/

/-- C9: `create` updates the namespace state even when the backend
returned a nonzero (errno-style) status, while `link`, `symlink`,
`rename` and `unlink` leave the state untouched for any nonzero status. -/
theorem create_ignores_backend_status (st : FsState) (path fromPath toPath : String)
    (id : Nat) (res : Int) (hres : res ≠ 0) :
    mapLookup path (create st path id res).mappings = some id ∧
    linksOf (create st path id res) id = linksOf st id + 1 ∧
    link st fromPath toPath res = .ok st ∧
    symlink st fromPath toPath res = .ok st ∧
    rename st fromPath toPath res = .ok st ∧
    unlink st path res = .ok (st, []) := by
  refine ⟨?_, ?_, ?_, ?_, ?_, ?_⟩
  · exact lookup_insert_self path id st.mappings
  · show (mapLookup id (mapInsert id ((mapLookup id st.links).getD 0 + 1) st.links)).getD 0
        = (mapLookup id st.links).getD 0 + 1
    rw [lookup_insert_self]
    rfl
  · unfold link
    rw [if_neg hres]
  · unfold symlink
    rw [if_neg hres]
  · unfold rename
    rw [if_neg hres]
  · unfold unlink
    rw [if_neg hres]

/-- Witness for `create_ignores_backend_status` on `wSt` with backend
status 7. -/
theorem create_ignores_backend_status_witness :
    mapLookup "g" (create wSt "g" 2 7).mappings = some 2 ∧
    linksOf (create wSt "g" 2 7) 2 = linksOf wSt 2 + 1 ∧
    link wSt "f" "g" 7 = .ok wSt ∧
    symlink wSt "f" "g" 7 = .ok wSt ∧
    rename wSt "f" "g" 7 = .ok wSt ∧
    unlink wSt "g" 7 = .ok (wSt, []) :=
  create_ignores_backend_status wSt "g" "f" "g" 2 7 (by norm_num)

/-! ## Persistence coordinator -/

/-- C5: a `load` that fails at any step leaves the links, mappings,
allocator and root-id fields unchanged — they are assigned only after
every step has succeeded. -/
theorem load_error_leaves_state (st : FsState) (env : LoadEnv) (e : Error)
    (h : (load st env).2 = some e) :
    (load st env).1.links = st.links ∧ (load st env).1.mappings = st.mappings ∧
    (load st env).1.freed = st.freed ∧ (load st env).1.rootId = st.rootId := by
  obtain ⟨ek, ld, md, ad, rd, tl⟩ := env
  cases ek with
  | none => exact ⟨rfl, rfl, rfl, rfl⟩
  | some rk =>
    cases ld with
    | none => exact ⟨rfl, rfl, rfl, rfl⟩
    | some lks =>
      cases md with
      | none => exact ⟨rfl, rfl, rfl, rfl⟩
      | some mps =>
        cases ad with
        | none => exact ⟨rfl, rfl, rfl, rfl⟩
        | some alc =>
          cases rd with
          | none => exact ⟨rfl, rfl, rfl, rfl⟩
          | some rid =>
            rcases htl : tl rid rk with _ | t
            · simp [load, htl]
            · simp only [load, htl] at h
              cases h

/-- Witness for `load_error_leaves_state` on the failing environment. -/
theorem load_error_leaves_state_witness :
    (load wSt loadEnvFail).2 = some Error.enclave ∧
    ((load wSt loadEnvFail).1.links = wSt.links ∧
     (load wSt loadEnvFail).1.mappings = wSt.mappings ∧
     (load wSt loadEnvFail).1.freed = wSt.freed ∧
     (load wSt loadEnvFail).1.rootId = wSt.rootId) :=
  ⟨rfl, load_error_leaves_state wSt loadEnvFail Error.enclave rfl⟩

/-- C10: a successful `load` keeps the in-memory `root_key` (the
self-assignment is a no-op) while links, mappings, allocator and root id
are replaced by the loaded values. -/
theorem load_success_root_key_frame (st : FsState) (env : LoadEnv)
    (h : (load st env).2 = none) :
    (load st env).1.rootKey = st.rootKey ∧
    (∃ l, env.linksData = some l ∧ (load st env).1.links = l) ∧
    (∃ m, env.mappingsData = some m ∧ (load st env).1.mappings = m) ∧
    (∃ a, env.allocatorData = some a ∧ (load st env).1.freed = a) ∧
    (∃ r, env.rootIdData = some r ∧ (load st env).1.rootId = r) := by
  obtain ⟨ek, ld, md, ad, rd, tl⟩ := env
  cases ek with
  | none => cases h
  | some rk =>
    cases ld with
    | none => cases h
    | some lks =>
      cases md with
      | none => cases h
      | some mps =>
        cases ad with
        | none => cases h
        | some alc =>
          cases rd with
          | none => cases h
          | some rid =>
            rcases htl : tl rid rk with _ | t
            · simp only [load, htl] at h
              cases h
            · have hload : load st ⟨some rk, some lks, some mps, some alc, some rid, tl⟩
                  = ({ st with
                        tree := t
                        links := lks
                        mappings := mps
                        freed := alc
                        rootId := rid
                        rootKey := st.rootKey }, none) := by
                simp [load, htl]
              rw [hload]
              exact ⟨rfl, ⟨lks, rfl, rfl⟩, ⟨mps, rfl, rfl⟩, ⟨alc, rfl, rfl⟩,
                ⟨rid, rfl, rfl⟩⟩

/-- Witness for `load_success_root_key_frame` on the succeeding
environment. -/
theorem load_success_root_key_frame_witness :
    (load wSt loadEnvOk).1.rootKey = wSt.rootKey ∧
    (∃ l, loadEnvOk.linksData = some l ∧ (load wSt loadEnvOk).1.links = l) ∧
    (∃ m, loadEnvOk.mappingsData = some m ∧ (load wSt loadEnvOk).1.mappings = m) ∧
    (∃ a, loadEnvOk.allocatorData = some a ∧ (load wSt loadEnvOk).1.freed = a) ∧
    (∃ r, loadEnvOk.rootIdData = some r ∧ (load wSt loadEnvOk).1.rootId = r) :=
  load_success_root_key_frame wSt loadEnvOk rfl

/-- C6: a successful `persist` performs its effects in the order
`tree.persist`, then the links, mappings, allocator and root-id metadata
writes, and the enclave root-key write strictly last. -/
theorem persist_effect_order (st : FsState) (env : PersistEnv)
    (h : (persist st env).2.2 = none) :
    (persist st env).2.1 = [.treePersist, .writeLinks, .writeMappings,
      .writeAllocator, .writeRootId, .writeEnclave] := by
  obtain ⟨tp, lw, mw, aw, ro, ew⟩ := env
  cases tp with
  | none => cases h
  | some pr =>
    obtain ⟨rid, rk⟩ := pr
    cases lw <;> cases mw <;> cases aw <;> cases ro <;> cases ew <;>
      first
        | rfl
        | cases h

/-- Witness for `persist_effect_order` on the all-success environment. -/
theorem persist_effect_order_witness :
    (persist wSt persistEnvOk).2.1 = [.treePersist, .writeLinks, .writeMappings,
      .writeAllocator, .writeRootId, .writeEnclave] :=
  persist_effect_order wSt persistEnvOk rfl

/-- C7: `is_loadable` holds exactly when the enclave file is non-empty,
and `mount` skips `load` on an empty enclave. -/
theorem is_loadable_nonempty_enclave (st : FsState) (env : LoadEnv) :
    (is_loadable st = true ↔ 0 < st.enclave.length) ∧
    (st.enclave.length = 0 → mountLoadPhase st env = ((st, none), false)) := by
  constructor
  · unfold is_loadable
    rw [decide_eq_true_eq]
    omega
  · intro h0
    have hfalse : is_loadable st = false := by
      unfold is_loadable
      simp [h0]
    unfold mountLoadPhase
    rw [if_neg (by simp [hfalse])]

end SDBTreeFs
